import Mathlib

/-!
Verification of the classical algorithmic core specified for this repository:
the Deutsch-Jozsa classical constant/balanced classifier, the
Bernstein-Vazirani classical hidden-string recovery, Simon's classical
linear-kernel finder over GF(2), and the notebook helper `bdotz`.

The three components (ConstantBalancedClassifier, HiddenStringRecovery,
LinearKernelFinder) are described by the specification but have no classical
implementation in the repository (the notebooks only build quantum circuits),
so they are modelled from the spec.  The helper `bdotz` is embedded directly
from the Simon notebook's code cell.
-/

/-- Bit strings: lists of booleans, most significant bit first (so the
string "110" is `[true, true, false]`). -/
abbrev Bits := List Bool

/-- Modelled from the spec (3. DATA MODEL, BitString): bitwise XOR of two
equal-length bit strings. -/
def xorB (x y : Bits) : Bits := List.zipWith Bool.xor x y

/-- Modelled from the spec (4.2): the GF(2) inner product of two bit
strings, `dot(s, x) mod 2`. -/
def dotMod2 : Bits → Bits → Bool
  | [], _ => false
  | _ :: _, [] => false
  | a :: s, b :: x => Bool.xor (a && b) (dotMod2 s x)

/-- The all-zero bit string of length `n`. -/
def zeroBits (n : Nat) : Bits := List.replicate n false

/-- Modelled from the spec (4.2): the unit vector `e_i` of length `n`,
all zero bits except position `i` which is 1. -/
def unitVec : Nat → Nat → Bits
  | 0, _ => []
  | n + 1, 0 => true :: List.replicate n false
  | n + 1, i + 1 => false :: unitVec n i

/-- All bit strings of length `n`, enumerated. -/
def allBits : Nat → List Bits
  | 0 => [[]]
  | n + 1 => ((allBits n).map (List.cons false)) ++ ((allBits n).map (List.cons true))

/-- The natural number denoted by a bit string, most significant bit first. -/
def bitsToNat (l : Bits) : Nat := l.foldl (fun a bit => 2 * a + (if bit then 1 else 0)) 0

/-! ### ConstantBalancedClassifier (spec 4.1), modelled from the spec -/

/-- Modelled from the spec (4.1): the two possible classifications. -/
inductive DJResult
  | CONSTANT
  | BALANCED
deriving DecidableEq

/-- Modelled from the spec (4.1): the evaluation loop of the classical
classifier.  `first` is the oracle's output on input 0, `i` is the next input
to evaluate, `fuel` the number of evaluations still allowed; the returned
number counts the oracle evaluations performed overall (inputs `0..i-1` were
already evaluated before a call). -/
def classifyGo (oracle : Nat → Bool) (first : Bool) : Nat → Nat → DJResult × Nat
  | i, 0 => (DJResult.CONSTANT, i)
  | i, fuel + 1 =>
    if oracle i ≠ first then (DJResult.BALANCED, i + 1)
    else classifyGo oracle first (i + 1) fuel

/-- Modelled from the spec (4.1, ConstantBalancedClassifier.classify):
evaluate the oracle on inputs 0,1,2,... until two different outputs are
observed (BALANCED, short-circuit) or `2^(n-1)+1` evaluations have all agreed
(CONSTANT).  Returns the classification plus the number of oracle
evaluations performed. -/
def classify (oracle : Nat → Bool) (n : Nat) : DJResult × Nat :=
  classifyGo oracle (oracle 0) 1 (2 ^ (n - 1))

/-- An oracle is constant when every input yields the same output. -/
def IsConstantOracle (f : Nat → Bool) : Prop := ∀ x, f x = f 0

/-- An oracle over `n`-bit inputs is balanced when exactly half of the `2^n`
inputs map to `true`. -/
def IsBalancedOracle (f : Nat → Bool) (n : Nat) : Prop :=
  2 * ((Finset.range (2 ^ n)).filter (fun x => f x = true)).card = 2 ^ n

instance (f : Nat → Bool) (n : Nat) : Decidable (IsBalancedOracle f n) :=
  inferInstanceAs
    (Decidable (2 * ((Finset.range (2 ^ n)).filter (fun x => f x = true)).card = 2 ^ n))

/-! ### HiddenStringRecovery (spec 4.2), modelled from the spec -/

/-- Modelled from the spec (4.2): probe the oracle on the unit vectors whose
indices are listed in the argument, returning the bits read and the list of
queries issued (one oracle evaluation per query). -/
def recoverAuxBV (oracle : Bits → Bool) (n : Nat) : List Nat → List Bool × List Bits
  | [] => ([], [])
  | i :: rest =>
    let q := unitVec n i
    let bit := oracle q
    let r := recoverAuxBV oracle n rest
    (bit :: r.1, q :: r.2)

/-- Modelled from the spec (4.2, HiddenStringRecovery.recover): for each bit
position `i` in `0..n-1`, evaluate the oracle on the unit vector `e_i`; the
result is bit `i` of the hidden string.  Returns the recovered string and the
trace of oracle queries. -/
def recoverBV (oracle : Bits → Bool) (n : Nat) : List Bool × List Bits :=
  recoverAuxBV oracle n (List.range n)

/-! ### LinearKernelFinder (spec 4.3), modelled from the spec -/

/-- Index of the first `true` entry of a bit string, if any. -/
def pivotIdx : Bits → Option Nat
  | [] => none
  | true :: _ => some 0
  | false :: r => (pivotIdx r).map (· + 1)

/-- Modelled from the spec (4.3 step 2): reduce a vector by the rows already
in the system, XOR-ing away each row whose pivot column is set in the
vector (incremental Gaussian elimination). -/
def reduceVec : List Bits → Bits → Bits
  | [], z => z
  | r :: rs, z =>
    match pivotIdx r with
    | some p => if z.getD p false then reduceVec rs (xorB z r) else reduceVec rs z
    | none => reduceVec rs z

/-- Clear column `p` in every existing row using the new row `w`
(back-elimination keeping the system fully row-reduced). -/
def elimCol (p : Nat) (w : Bits) (rows : List Bits) : List Bits :=
  rows.map (fun r => if r.getD p false then xorB r w else r)

/-- Modelled from the spec (4.3 step 2): insert a vector into the linear
system over GF(2), keeping only vectors that increase the system's rank. -/
def insertRow (rows : List Bits) (z : Bits) : List Bits :=
  let w := reduceVec rows z
  match pivotIdx w with
  | none => rows
  | some p => elimCol p w rows ++ [w]

/-- Modelled from the spec (4.3 steps 1-3): the COLLECTING phase. Consume the
sample stream (the explicitly injected random source, whose length is the
configured maximum sample count), inserting each sample into the system,
and stop once `n-1` independent equations are collected or the stream is
exhausted.  Returns the final rows and the number of samples consumed. -/
def collect (n : Nat) : List Bits → List Bits → List Bits × Nat
  | [], rows => (rows, 0)
  | z :: rest, rows =>
    if n - 1 ≤ rows.length then (rows, 0)
    else
      let r := collect n rest (insertRow rows z)
      (r.1, r.2 + 1)

/-- Modelled from the spec (4.3 step 4): solve the homogeneous row-reduced
system for its null space.  Returns `none` when the system has full rank `n`
(no free column); otherwise sets the first free column `f` to 1 and each
pivot variable to the corresponding row's entry in column `f`. -/
def solveNull (n : Nat) (rows : List Bits) : Option Bits :=
  match (List.range n).find? (fun j => ! rows.any (fun r => pivotIdx r == some j)) with
  | none => none
  | some f =>
    some ((List.range n).map (fun j =>
      if j = f then true
      else
        match rows.find? (fun r => pivotIdx r == some j) with
        | some r => r.getD f false
        | none => false))

/-- Modelled from the spec (4.3 state machine): the terminal outcome states. -/
inductive LKFResult
  | SOLVED (b : Bits)
  | DEGENERATE
  | INVALID_ORACLE
deriving DecidableEq

/-- Modelled from the spec (4.3, LinearKernelFinder.recover): collect
independent equations from the sample stream (step 1-3; DEGENERATE when the
bound is exceeded below rank `n-1`), solve the system (step 4;
INVALID_ORACLE on full rank `n`), then validate the nonzero candidate by
checking `oracle(0) == oracle(b)` (step 5; INVALID_ORACLE when the check
fails). -/
def lkfRecover (oracle : Bits → Bits) (n : Nat) (samples : List Bits) : LKFResult :=
  let rows := (collect n samples []).1
  if rows.length < n - 1 then LKFResult.DEGENERATE
  else
    match solveNull n rows with
    | none => LKFResult.INVALID_ORACLE
    | some c =>
      if oracle (zeroBits n) = oracle c then LKFResult.SOLVED c
      else if c = zeroBits n then LKFResult.SOLVED c
      else LKFResult.INVALID_ORACLE

/-- Modelled from the spec (4.3 step 1, classical reference): the sampling
measurement queries a pair of inputs and, when they collide under the
oracle, yields their XOR as the measured vector `z`. -/
def collisionSample (oracle : Bits → Bits) (x y : Bits) : Option Bits :=
  if x ≠ y ∧ oracle x = oracle y then some (xorB x y) else none

/-- Modelled from the spec (4.3 contract): `oracle` is two-to-one on `n`-bit
inputs with hidden string `b`: `oracle(x) = oracle(y)` iff `x XOR y ∈ {0, b}`. -/
def TwoToOne (oracle : Bits → Bits) (b : Bits) (n : Nat) : Prop :=
  b.length = n ∧ ∀ x ∈ allBits n, ∀ y ∈ allBits n,
    (oracle x = oracle y ↔ (y = x ∨ y = xorB x b))

/-- An oracle is one-to-one on `n`-bit inputs when distinct inputs give
distinct outputs. -/
def OneToOne (oracle : Bits → Bits) (n : Nat) : Prop :=
  ∀ x ∈ allBits n, ∀ y ∈ allBits n, oracle x = oracle y → x = y

instance (oracle : Bits → Bits) (b : Bits) (n : Nat) : Decidable (TwoToOne oracle b n) :=
  inferInstanceAs (Decidable (b.length = n ∧ ∀ x ∈ allBits n, ∀ y ∈ allBits n,
    (oracle x = oracle y ↔ (y = x ∨ y = xorB x b))))

instance (oracle : Bits → Bits) (n : Nat) : Decidable (OneToOne oracle n) :=
  inferInstanceAs (Decidable (∀ x ∈ allBits n, ∀ y ∈ allBits n, oracle x = oracle y → x = y))

/-- A concrete contract-honoring two-to-one oracle for a hidden string `b`:
map each input to the numerically smaller element of its collision pair
`{x, x XOR b}`. -/
def simonOracle (b : Bits) (x : Bits) : Bits :=
  if bitsToNat x ≤ bitsToNat (xorB x b) then x else xorB x b

/-! ### Invariants of the linear system (spec 3. DATA MODEL, 4.3 step 2) -/

/-- Two rows are separated when each is zero at the other's pivot column
(the fully row-reduced shape maintained by `insertRow`). -/
def SepRel (r s : Bits) : Prop :=
  (∀ p, pivotIdx r = some p → s.getD p false = false) ∧
  (∀ p, pivotIdx s = some p → r.getD p false = false)

/-- The invariant of the linear system over GF(2): all rows have length `n`,
every row is nonzero (has a pivot), and the rows are pairwise separated. -/
def SysInv (n : Nat) (rows : List Bits) : Prop :=
  (∀ r ∈ rows, r.length = n) ∧ (∀ r ∈ rows, (pivotIdx r).isSome) ∧ rows.Pairwise SepRel

/-- XOR-fold of a list of length-`n` bit strings. -/
def xorFold (n : Nat) (l : List Bits) : Bits := l.foldr xorB (zeroBits n)

/-- Linear independence over GF(2): no nonempty sublist of the rows XORs to
the zero vector. -/
def LinIndep (n : Nat) (rows : List Bits) : Prop :=
  ∀ S : List Bits, S ≠ [] → S.Sublist rows → xorFold n S ≠ zeroBits n

/-! ### The notebook helper `bdotz`, embedded from the source
(`Simons Algorithm.ipynb`, code cell 11) -/

/-- The loop of `bdotz`: `for i in range(len(b)): accum += int(b[i]) * int(z[i])`.
Python indexing raises when `i` is out of range, hence the `Option`. -/
def bdotzAux (b z : List Nat) : Nat → List Nat → Option Nat
  | accum, [] => some (accum % 2)
  | accum, i :: rest =>
    match b[i]?, z[i]? with
    | some bi, some zi => bdotzAux b z (accum + bi * zi) rest
    | _, _ => none

/-- Embedded from the source notebook:
`def bdotz(b, z): accum = 0; for i in range(len(b)): accum += int(b[i]) * int(z[i]); return (accum % 2)`. -/
def bdotz (b z : List Nat) : Option Nat := bdotzAux b z 0 (List.range b.length)

/-! ### Lemmas about the classifier -/

theorem classifyGo_const (f : Nat → Bool) (first : Bool) (h : ∀ x, f x = first) :
    ∀ fuel i, classifyGo f first i fuel = (DJResult.CONSTANT, i + fuel) := by
  intro fuel
  induction fuel with
  | zero => intro i; simp [classifyGo]
  | succ k ih =>
    intro i
    simp only [classifyGo, h i, ne_eq, not_true_eq_false, if_false, ih]
    congr 1
    omega

theorem classifyGo_finds (f : Nat → Bool) (first : Bool) :
    ∀ fuel i j, i ≤ j → j < i + fuel → f j ≠ first →
      (∀ k, i ≤ k → k < j → f k = first) →
      classifyGo f first i fuel = (DJResult.BALANCED, j + 1) := by
  intro fuel
  induction fuel with
  | zero => intro i j hij hlt _ _; exact absurd hlt (by omega)
  | succ m ih =>
    intro i j hij hlt hne hall
    by_cases hi : i = j
    · subst hi
      simp [classifyGo, hne]
    · have hfi : f i = first := hall i le_rfl (by omega)
      simp only [classifyGo, hfi, ne_eq, not_true_eq_false, if_false]
      exact ih (i + 1) j (by omega) (by omega) hne (fun k hk1 hk2 => hall k (by omega) hk2)

/-! ### Lemmas about HiddenStringRecovery -/

theorem dot_replicate (s : Bits) : ∀ k, dotMod2 s (List.replicate k false) = false := by
  induction s with
  | nil => intro k; rfl
  | cons a t ih =>
    intro k
    cases k with
    | zero => rfl
    | succ m => simp [List.replicate, dotMod2, ih]

theorem dot_unitVec (s : Bits) : ∀ i, i < s.length → dotMod2 s (unitVec s.length i) = s.getD i false := by
  induction s with
  | nil => intro i hi; simp at hi
  | cons a t ih =>
    intro i hi
    cases i with
    | zero => simp [unitVec, dotMod2, dot_replicate]
    | succ m =>
      simp only [List.length_cons, unitVec, dotMod2, List.getD_cons_succ]
      rw [ih m (by simpa using hi)]
      simp

theorem recoverAuxBV_eq (o : Bits → Bool) (n : Nat) :
    ∀ l : List Nat, recoverAuxBV o n l = (l.map (fun i => o (unitVec n i)), l.map (unitVec n)) := by
  intro l
  induction l with
  | nil => rfl
  | cons i rest ih => simp [recoverAuxBV, ih]

theorem map_getD_range (s : Bits) : (List.range s.length).map (fun i => s.getD i false) = s := by
  induction s with
  | nil => rfl
  | cons a t ih =>
    rw [List.length_cons, List.range_succ_eq_map, List.map_cons, List.map_map]
    simp only [List.getD_cons_zero, Function.comp_def, List.getD_cons_succ]
    rw [ih]

/-! ### Lemmas about `bdotz` -/

theorem bdotzAux_fail (b z : List Nat) :
    ∀ l accum, (∃ i ∈ l, z.length ≤ i) → bdotzAux b z accum l = none := by
  intro l
  induction l with
  | nil =>
    rintro accum ⟨i, hi, _⟩
    simp at hi
  | cons j rest ih =>
    rintro accum ⟨i, hi, hlen⟩
    rcases List.mem_cons.mp hi with h | h
    · subst h
      have hz : z[i]? = none := by
        rw [List.getElem?_eq_none_iff]
        exact hlen
      simp only [bdotzAux, hz]
      cases b[i]? <;> rfl
    · simp only [bdotzAux]
      cases hb : b[j]? with
      | none => rfl
      | some bi =>
        cases hz : z[j]? with
        | none => rfl
        | some zi => exact ih _ ⟨i, h, hlen⟩

theorem bdotzAux_ok (b z : List Nat) :
    ∀ l accum, (∀ i ∈ l, i < b.length) → (∀ i ∈ l, i < z.length) →
      bdotzAux b z accum l =
        some ((accum + (l.map (fun i => b.getD i 0 * z.getD i 0)).sum) % 2) := by
  intro l
  induction l with
  | nil => intro accum _ _; simp [bdotzAux]
  | cons j rest ih =>
    intro accum hb hz
    have hjb : j < b.length := hb j (List.mem_cons_self j rest)
    have hjz : j < z.length := hz j (List.mem_cons_self j rest)
    have hbj : b[j]? = some (b.getD j 0) := by
      rw [List.getElem?_eq_getElem hjb, List.getD_eq_getElem b 0 hjb]
    have hzj : z[j]? = some (z.getD j 0) := by
      rw [List.getElem?_eq_getElem hjz, List.getD_eq_getElem z 0 hjz]
    simp only [bdotzAux, hbj, hzj]
    rw [ih _ (fun i hi => hb i (List.mem_cons_of_mem j hi))
        (fun i hi => hz i (List.mem_cons_of_mem j hi))]
    congr 1
    simp only [List.map_cons, List.sum_cons]
    omega

theorem sum_range_eq_zipWith (b : List Nat) : ∀ z : List Nat, b.length ≤ z.length →
    ((List.range b.length).map (fun i => b.getD i 0 * z.getD i 0)).sum =
      (List.zipWith (· * ·) b z).sum := by
  induction b with
  | nil => intro z _; simp
  | cons a t ih =>
    intro z hlen
    cases z with
    | nil => simp at hlen
    | cons c w =>
      rw [List.length_cons, List.range_succ_eq_map, List.map_cons, List.map_map]
      simp only [List.getD_cons_zero, Function.comp_def, List.getD_cons_succ,
        List.zipWith_cons_cons, List.sum_cons]
      rw [ih w (by simpa using hlen)]

/-! ### Claim C1 -/

/-- C1: for every n and every n-bit hidden string s, `recover(oracle_s, n)`,
where `oracle_s` computes `dot(s, x) mod 2`, returns exactly s and performs
exactly n oracle evaluations, obtained by querying the unit vectors `e_i`
for i in 0..n-1, each query returning bit i of s.  (The components are
spec-modelled; the second component of `recoverBV` is the trace of oracle
queries, so its length is the number of oracle evaluations.) -/
theorem claim_C1_hidden_string_recovery (s : Bits) :
    (recoverBV (dotMod2 s) s.length).1 = s ∧
    (recoverBV (dotMod2 s) s.length).2 = (List.range s.length).map (unitVec s.length) ∧
    (recoverBV (dotMod2 s) s.length).2.length = s.length ∧
    ∀ i, i < s.length → dotMod2 s (unitVec s.length i) = s.getD i false := by
  refine ⟨?_, ?_, ?_, fun i hi => dot_unitVec s i hi⟩
  · unfold recoverBV
    rw [recoverAuxBV_eq]
    have h : ∀ i ∈ List.range s.length,
        dotMod2 s (unitVec s.length i) = s.getD i false :=
      fun i hi => dot_unitVec s i (List.mem_range.mp hi)
    calc ((List.range s.length).map (fun i => dotMod2 s (unitVec s.length i)),
            (List.range s.length).map (unitVec s.length)).1
        = (List.range s.length).map (fun i => s.getD i false) := List.map_congr_left h
      _ = s := map_getD_range s
  · unfold recoverBV
    rw [recoverAuxBV_eq]
  · unfold recoverBV
    rw [recoverAuxBV_eq]
    simp

/-- Witness for C1 at the spec's concrete scenario s = "1011". -/
theorem claim_C1_witness :
    (recoverBV (dotMod2 [true, false, true, true]) 4).1 = [true, false, true, true] ∧
    dotMod2 [true, false, true, true] (unitVec 4 0) = true := by
  have h := claim_C1_hidden_string_recovery [true, false, true, true]
  exact ⟨h.1, h.2.2.2 0 (by decide)⟩

/-! ### Claim C3 -/

/-- C3: for every n and every constant oracle over n-bit inputs, classify
returns CONSTANT, and (every constant oracle being an always-agreeing
oracle) it performs exactly `2^(n-1)+1` oracle evaluations before deciding. -/
theorem claim_C3_constant_classifier (f : Nat → Bool) (n : Nat)
    (h : IsConstantOracle f) :
    classify f n = (DJResult.CONSTANT, 2 ^ (n - 1) + 1) := by
  unfold classify
  rw [classifyGo_const f (f 0) (fun x => h x)]
  congr 1
  omega

/-- Witness for C3 at the always-true oracle with n = 3. -/
theorem claim_C3_witness :
    IsConstantOracle (fun _ => true) ∧
      classify (fun _ => true) 3 = (DJResult.CONSTANT, 5) :=
  ⟨fun _ => rfl, claim_C3_constant_classifier (fun _ => true) 3 (fun _ => rfl)⟩

/-! ### Claim C9 -/

/-- C9: each of the three components is deterministic given its inputs: two
runs of the same component with the same oracle (and, for the kernel
finder, the same explicitly injected random sample source) yield the same
answer. -/
theorem claim_C9_determinism (f g : Nat → Bool) (o o2 : Bits → Bool)
    (q q2 : Bits → Bits) (n : Nat) (samples samples2 : List Bits)
    (hf : f = g) (ho : o = o2) (hq : q = q2) (hs : samples = samples2) :
    classify f n = classify g n ∧ recoverBV o n = recoverBV o2 n ∧
      lkfRecover q n samples = lkfRecover q2 n samples2 := by
  subst hf; subst ho; subst hq; subst hs
  exact ⟨rfl, rfl, rfl⟩

/-- Witness for C9 at concrete components. -/
theorem claim_C9_witness :
    classify (fun _ => true) 2 = classify (fun _ => true) 2 ∧
      recoverBV (dotMod2 [true]) 2 = recoverBV (dotMod2 [true]) 2 ∧
      lkfRecover (fun x => x) 2 [[true, false]] = lkfRecover (fun x => x) 2 [[true, false]] :=
  claim_C9_determinism (fun _ => true) (fun _ => true) (dotMod2 [true]) (dotMod2 [true])
    (fun x => x) (fun x => x) 2 [[true, false]] [[true, false]] rfl rfl rfl rfl

/-! ### Claim C10 -/

/-- C10: for all digit strings b and z with `len(z) >= len(b)`, `bdotz(b, z)`
returns exactly `(sum over i < len(b) of b[i]*z[i]) mod 2` (so characters of
z beyond position `len(b)-1` are ignored and the result is 0 or 1); when
`len(z) < len(b)` the indexing `z[i]` fails, so the call does not return a
value. -/
theorem claim_C10_bdotz (b z : List Nat) :
    (bdotz b z = if b.length ≤ z.length
      then some ((List.zipWith (· * ·) b z).sum % 2) else none) ∧
    ∀ r, bdotz b z = some r → r ≤ 1 := by
  have hmain : bdotz b z = if b.length ≤ z.length
      then some ((List.zipWith (· * ·) b z).sum % 2) else none := by
    by_cases hlen : b.length ≤ z.length
    · rw [if_pos hlen]
      unfold bdotz
      rw [bdotzAux_ok b z (List.range b.length) 0
          (fun i hi => List.mem_range.mp hi)
          (fun i hi => Nat.lt_of_lt_of_le (List.mem_range.mp hi) hlen)]
      rw [sum_range_eq_zipWith b z hlen]
      simp
    · rw [if_neg hlen]
      unfold bdotz
      exact bdotzAux_fail b z (List.range b.length) 0
        ⟨z.length, List.mem_range.mpr (by omega), le_rfl⟩
  refine ⟨hmain, fun r hr => ?_⟩
  rw [hmain] at hr
  by_cases hlen : b.length ≤ z.length
  · rw [if_pos hlen] at hr
    have : (List.zipWith (· * ·) b z).sum % 2 = r := Option.some_injective _ hr
    omega
  · rw [if_neg hlen] at hr
    exact absurd hr (by simp)

/-- Witness for C10 at b = "110", z = "001" (from the notebook's output). -/
theorem claim_C10_witness :
    bdotz [1, 1, 0] [0, 0, 1] = some 0 ∧ (0 : Nat) ≤ 1 := by
  have h := claim_C10_bdotz [1, 1, 0] [0, 0, 1]
  exact ⟨by rw [h.1]; rfl, h.2 0 (by rw [h.1]; rfl)⟩

/-! ### Claim C4 -/

theorem balanced_has_disagreement (f : Nat → Bool) (n : Nat)
    (hb : IsBalancedOracle f n) : ∃ j, j ≤ 2 ^ (n - 1) ∧ f j ≠ f 0 := by
  by_contra hcon
  push_neg at hcon
  unfold IsBalancedOracle at hb
  rcases Nat.eq_zero_or_pos n with hn | hn
  · subst hn
    simp at hb
  obtain ⟨m, rfl⟩ : ∃ m, n = m + 1 := ⟨n - 1, by omega⟩
  simp only [Nat.add_sub_cancel] at hcon
  have hpow : (2 : Nat) ^ (m + 1) = 2 ^ m + 2 ^ m := by
    rw [pow_succ]
    omega
  have hone : 0 < 2 ^ m := pow_pos (by norm_num) _
  have hsub : Finset.range (2 ^ m + 1) ⊆ Finset.range (2 ^ (m + 1)) :=
    Finset.range_subset.mpr (by omega)
  cases hf0 : f 0 with
  | true =>
    have hsubT : Finset.range (2 ^ m + 1) ⊆
        (Finset.range (2 ^ (m + 1))).filter (fun x => f x = true) := by
      intro x hx
      rw [Finset.mem_filter]
      refine ⟨hsub hx, ?_⟩
      rw [hcon x (Nat.lt_succ_iff.mp (Finset.mem_range.mp hx))]
      exact hf0
    have hcard := Finset.card_le_card hsubT
    rw [Finset.card_range] at hcard
    omega
  | false =>
    have hsplit : ((Finset.range (2 ^ (m + 1))).filter (fun x => f x = true)).card +
        ((Finset.range (2 ^ (m + 1))).filter (fun x => ¬ (f x = true))).card = 2 ^ (m + 1) := by
      rw [Finset.filter_card_add_filter_neg_card_eq_card, Finset.card_range]
    have hsubF : Finset.range (2 ^ m + 1) ⊆
        (Finset.range (2 ^ (m + 1))).filter (fun x => ¬ (f x = true)) := by
      intro x hx
      rw [Finset.mem_filter]
      refine ⟨hsub hx, ?_⟩
      rw [hcon x (Nat.lt_succ_iff.mp (Finset.mem_range.mp hx)), hf0]
      simp
    have hcard := Finset.card_le_card hsubF
    rw [Finset.card_range] at hcard
    omega

/-- C4: for every n and every balanced oracle over n-bit inputs, classify
returns BALANCED, short-circuiting at the first disagreement with the first
output, after at most `2^(n-1)+1` oracle evaluations; and the bound is
tight: for every n >= 1 some balanced oracle agrees on `2^(n-1)` inputs
before revealing a difference, forcing exactly `2^(n-1)+1` evaluations. -/
theorem claim_C4_balanced_classifier :
    (∀ (f : Nat → Bool) (n : Nat), IsBalancedOracle f n →
      ∃ j, f j ≠ f 0 ∧ (∀ k, k < j → f k = f 0) ∧
        classify f n = (DJResult.BALANCED, j + 1) ∧ j + 1 ≤ 2 ^ (n - 1) + 1) ∧
    (∀ n, 1 ≤ n → ∃ f : Nat → Bool, IsBalancedOracle f n ∧
      classify f n = (DJResult.BALANCED, 2 ^ (n - 1) + 1)) := by
  constructor
  · intro f n hb
    obtain ⟨j0, hj0le, hj0ne⟩ := balanced_has_disagreement f n hb
    have hex : ∃ j, f j ≠ f 0 := ⟨j0, hj0ne⟩
    have hj : f (Nat.find hex) ≠ f 0 := Nat.find_spec hex
    have hmin : ∀ k, k < Nat.find hex → f k = f 0 := by
      intro k hk
      have h := Nat.find_min hex hk
      exact not_not.mp (by simpa using h)
    have hjle : Nat.find hex ≤ j0 := Nat.find_min' hex hj0ne
    have hjpos : 1 ≤ Nat.find hex := by
      rcases Nat.eq_zero_or_pos (Nat.find hex) with h0 | h1
      · exact absurd (h0 ▸ hj) (by simp)
      · exact h1
    refine ⟨Nat.find hex, hj, hmin, ?_, by omega⟩
    unfold classify
    exact classifyGo_finds f (f 0) (2 ^ (n - 1)) 1 (Nat.find hex) hjpos (by omega) hj
      (fun k _ hk2 => hmin k hk2)
  · intro n hn
    obtain ⟨m, rfl⟩ : ∃ m, n = m + 1 := ⟨n - 1, by omega⟩
    simp only [Nat.add_sub_cancel]
    have hone : 0 < 2 ^ m := pow_pos (by norm_num) _
    refine ⟨fun x => decide (2 ^ m ≤ x), ?_, ?_⟩
    · unfold IsBalancedOracle
      have hfilter : (Finset.range (2 ^ (m + 1))).filter
            (fun x => (decide (2 ^ m ≤ x)) = true)
          = Finset.Ico (2 ^ m) (2 ^ (m + 1)) := by
        ext x
        simp only [Finset.mem_filter, Finset.mem_range, Finset.mem_Ico,
          decide_eq_true_eq]
        omega
      rw [hfilter, Nat.card_Ico, pow_succ]
      omega
    · unfold classify
      simp only [Nat.add_sub_cancel]
      have h0 : decide (2 ^ m ≤ 0) = false := by
        simp only [decide_eq_false_iff_not, Nat.not_le]
        exact hone
      rw [h0]
      exact classifyGo_finds (fun x => decide (2 ^ m ≤ x)) false
        (2 ^ m) 1 (2 ^ m) (by omega) (by omega)
        (by simp)
        (fun k hk1 hk2 => by
          simp only [decide_eq_false_iff_not, Nat.not_le]
          omega)

/-- Witness for C4 at the balanced oracle `x >= 2` with n = 2. -/
theorem claim_C4_witness :
    (∃ j, (fun x => decide (2 ≤ x)) j ≠ (fun x => decide (2 ≤ x)) 0 ∧
      (∀ k, k < j → (fun x => decide (2 ≤ x)) k = (fun x => decide (2 ≤ x)) 0) ∧
      classify (fun x => decide (2 ≤ x)) 2 = (DJResult.BALANCED, j + 1) ∧
      j + 1 ≤ 2 ^ (2 - 1) + 1) ∧
    (∃ f : Nat → Bool, IsBalancedOracle f 2 ∧
      classify f 2 = (DJResult.BALANCED, 2 ^ (2 - 1) + 1)) :=
  ⟨claim_C4_balanced_classifier.1 (fun x => decide (2 ≤ x)) 2 (by decide),
   claim_C4_balanced_classifier.2 2 (by decide)⟩

/-! ### Lemmas about bit strings -/

theorem mem_allBits : ∀ (n : Nat) (x : Bits), x ∈ allBits n ↔ x.length = n := by
  intro n
  induction n with
  | zero =>
    intro x
    cases x <;> simp [allBits]
  | succ m ih =>
    intro x
    cases x with
    | nil => simp [allBits]
    | cons a t =>
      simp only [allBits, List.mem_append, List.mem_map, List.length_cons,
        Nat.add_right_cancel_iff]
      constructor
      · rintro (⟨u, hu, he⟩ | ⟨u, hu, he⟩)
        · injection he with _ ht
          rw [← ht]
          exact (ih u).mp hu
        · injection he with _ ht
          rw [← ht]
          exact (ih u).mp hu
      · intro hlen
        cases a with
        | false => exact Or.inl ⟨t, (ih t).mpr hlen, rfl⟩
        | true => exact Or.inr ⟨t, (ih t).mpr hlen, rfl⟩

theorem length_xorB (x y : Bits) (n : Nat) (hx : x.length = n) (hy : y.length = n) :
    (xorB x y).length = n := by
  unfold xorB
  rw [List.length_zipWith, hx, hy, Nat.min_self]

theorem getD_nil (i : Nat) (d : Bool) : List.getD ([] : Bits) i d = d := by
  cases i <;> rfl

theorem getD_xorB : ∀ (x y : Bits) (n : Nat), x.length = n → y.length = n →
    ∀ i, (xorB x y).getD i false = Bool.xor (x.getD i false) (y.getD i false) := by
  intro x
  induction x with
  | nil =>
    intro y n hx hy i
    have : y = [] := by
      cases y
      · rfl
      · subst hx; simp at hy
    subst this
    simp [xorB, getD_nil]
  | cons a t ih =>
    intro y n hx hy i
    cases y with
    | nil => subst hy; simp at hx
    | cons c w =>
      cases i with
      | zero => simp [xorB]
      | succ j =>
        simp only [xorB, List.zipWith_cons_cons, List.getD_cons_succ]
        cases n with
        | zero => simp at hx
        | succ m => exact ih w m (by simpa using hx) (by simpa using hy) j

theorem getD_zeroBits (n i : Nat) : (zeroBits n).getD i false = false := by
  unfold zeroBits
  induction n generalizing i with
  | zero => exact getD_nil i false
  | succ m ih =>
    cases i with
    | zero => rfl
    | succ j => simp only [List.replicate, List.getD_cons_succ]; exact ih j

theorem xorB_cancel : ∀ (x y : Bits), x.length = y.length → xorB x (xorB x y) = y := by
  intro x
  induction x with
  | nil =>
    intro y h
    cases y
    · rfl
    · simp at h
  | cons a t ih =>
    intro y h
    cases y with
    | nil => simp at h
    | cons c w =>
      simp only [xorB, List.zipWith_cons_cons, List.cons.injEq]
      constructor
      · cases a <;> cases c <;> rfl
      · exact ih w (by simpa using h)

theorem xorB_zeroBits (b : Bits) (n : Nat) (hb : b.length = n) :
    xorB (zeroBits n) b = b := by
  subst hb
  unfold zeroBits
  induction b with
  | nil => rfl
  | cons a t ih =>
    simp only [List.length_cons, List.replicate, xorB, List.zipWith_cons_cons,
      List.cons.injEq]
    exact ⟨by cases a <;> rfl, ih⟩

/-! ### Lemmas about pivots -/

theorem pivotIdx_spec : ∀ (r : Bits) (p : Nat), pivotIdx r = some p →
    p < r.length ∧ r.getD p false = true ∧ ∀ j, j < p → r.getD j false = false := by
  intro r
  induction r with
  | nil => intro p h; simp [pivotIdx] at h
  | cons a t ih =>
    intro p h
    cases a with
    | true =>
      simp only [pivotIdx, Option.some.injEq] at h
      subst h
      exact ⟨by simp, rfl, fun j hj => absurd hj (by omega)⟩
    | false =>
      simp only [pivotIdx, Option.map_eq_some'] at h
      obtain ⟨q, hq, rfl⟩ := h
      obtain ⟨h1, h2, h3⟩ := ih q hq
      refine ⟨by simpa using h1, by simpa using h2, ?_⟩
      intro j hj
      cases j with
      | zero => rfl
      | succ i =>
        simp only [List.getD_cons_succ]
        exact h3 i (by omega)

theorem pivotIdx_none : ∀ (r : Bits), pivotIdx r = none →
    ∀ j, r.getD j false = false := by
  intro r
  induction r with
  | nil => intro _ j; exact getD_nil j false
  | cons a t ih =>
    intro h j
    cases a with
    | true => simp [pivotIdx] at h
    | false =>
      simp only [pivotIdx, Option.map_eq_none'] at h
      cases j with
      | zero => rfl
      | succ i => exact ih h i

theorem pivotIdx_intro : ∀ (r : Bits) (p : Nat), p < r.length →
    r.getD p false = true → (∀ j, j < p → r.getD j false = false) →
    pivotIdx r = some p := by
  intro r
  induction r with
  | nil => intro p h; simp at h
  | cons a t ih =>
    intro p hlt hget hbefore
    cases p with
    | zero =>
      simp only [List.getD_cons_zero] at hget
      subst hget
      rfl
    | succ q =>
      have ha : a = false := by
        have := hbefore 0 (by omega)
        simpa using this
      subst ha
      simp only [pivotIdx]
      rw [ih q (by simpa using hlt) (by simpa using hget)
        (fun j hj => by simpa using hbefore (j + 1) (by omega))]
      rfl

/-! ### Lemmas about `reduceVec` -/

theorem reduceVec_cons_some (r : Bits) (rs : List Bits) (z : Bits) (p : Nat)
    (hp : pivotIdx r = some p) :
    reduceVec (r :: rs) z =
      if z.getD p false then reduceVec rs (xorB z r) else reduceVec rs z := by
  simp only [reduceVec, hp]

theorem reduceVec_cons_none (r : Bits) (rs : List Bits) (z : Bits)
    (hp : pivotIdx r = none) :
    reduceVec (r :: rs) z = reduceVec rs z := by
  simp only [reduceVec, hp]

theorem reduceVec_length : ∀ (rows : List Bits) (z : Bits) (n : Nat),
    (∀ r ∈ rows, r.length = n) → z.length = n → (reduceVec rows z).length = n := by
  intro rows
  induction rows with
  | nil => intro z n _ hz; exact hz
  | cons r rs ih =>
    intro z n hlen hz
    have hr : r.length = n := hlen r (List.mem_cons_self r rs)
    have htail : ∀ s ∈ rs, s.length = n := fun s hs => hlen s (List.mem_cons_of_mem r hs)
    cases hp : pivotIdx r with
    | none =>
      rw [reduceVec_cons_none r rs z hp]
      exact ih z n htail hz
    | some p =>
      rw [reduceVec_cons_some r rs z p hp]
      by_cases hzp : z.getD p false = true
      · rw [if_pos hzp]
        exact ih (xorB z r) n htail (length_xorB z r n hz hr)
      · rw [if_neg hzp]
        exact ih z n htail hz

theorem reduceVec_coord : ∀ (rows : List Bits) (z : Bits) (n p : Nat),
    (∀ r ∈ rows, r.length = n) → z.length = n →
    (∀ r ∈ rows, r.getD p false = false) →
    (reduceVec rows z).getD p false = z.getD p false := by
  intro rows
  induction rows with
  | nil => intro z n p _ _ _; rfl
  | cons r rs ih =>
    intro z n p hlen hz hcoord
    have hr : r.length = n := hlen r (List.mem_cons_self r rs)
    have htail : ∀ s ∈ rs, s.length = n := fun s hs => hlen s (List.mem_cons_of_mem r hs)
    have hctail : ∀ s ∈ rs, s.getD p false = false :=
      fun s hs => hcoord s (List.mem_cons_of_mem r hs)
    cases hp : pivotIdx r with
    | none =>
      rw [reduceVec_cons_none r rs z hp]
      exact ih z n p htail hz hctail
    | some q =>
      rw [reduceVec_cons_some r rs z q hp]
      by_cases hzq : z.getD q false = true
      · rw [if_pos hzq]
        rw [ih (xorB z r) n p htail (length_xorB z r n hz hr) hctail]
        rw [getD_xorB z r n hz hr p, hcoord r (List.mem_cons_self r rs)]
        cases z.getD p false <;> rfl
      · rw [if_neg hzq]
        exact ih z n p htail hz hctail

theorem reduceVec_clears : ∀ (rows : List Bits) (z : Bits) (n : Nat),
    rows.Pairwise SepRel → (∀ r ∈ rows, r.length = n) → z.length = n →
    ∀ r ∈ rows, ∀ q, pivotIdx r = some q → (reduceVec rows z).getD q false = false := by
  intro rows
  induction rows with
  | nil => intro z n _ _ _ r hr; simp at hr
  | cons r rs ih =>
    intro z n hpair hlen hz s hs q hq
    have hr : r.length = n := hlen r (List.mem_cons_self r rs)
    have htail : ∀ u ∈ rs, u.length = n := fun u hu => hlen u (List.mem_cons_of_mem r hu)
    have hhead : ∀ u ∈ rs, SepRel r u := (List.pairwise_cons.mp hpair).1
    have htailp : rs.Pairwise SepRel := (List.pairwise_cons.mp hpair).2
    rcases List.mem_cons.mp hs with rfl | hmem
    · rw [reduceVec_cons_some s rs z q hq]
      have hclear : ∀ u ∈ rs, u.getD q false = false :=
        fun u hu => (hhead u hu).1 q hq
      by_cases hzq : z.getD q false = true
      · rw [if_pos hzq]
        rw [reduceVec_coord rs (xorB z s) n q htail (length_xorB z s n hz hr) hclear]
        rw [getD_xorB z s n hz hr q, hzq, (pivotIdx_spec s q hq).2.1]
        rfl
      · rw [if_neg hzq]
        rw [reduceVec_coord rs z n q htail hz hclear]
        cases hval : z.getD q false
        · rfl
        · exact absurd hval hzq
    · cases hp : pivotIdx r with
      | none =>
        rw [reduceVec_cons_none r rs z hp]
        exact ih z n htailp htail hz s hmem q hq
      | some p =>
        rw [reduceVec_cons_some r rs z p hp]
        by_cases hzp : z.getD p false = true
        · rw [if_pos hzp]
          exact ih (xorB z r) n htailp htail (length_xorB z r n hz hr) s hmem q hq
        · rw [if_neg hzp]
          exact ih z n htailp htail hz s hmem q hq

/-! ### Lemmas about `insertRow` -/

theorem insertRow_none (rows : List Bits) (z : Bits)
    (h : pivotIdx (reduceVec rows z) = none) : insertRow rows z = rows := by
  simp only [insertRow, h]

theorem insertRow_some (rows : List Bits) (z : Bits) (p : Nat)
    (h : pivotIdx (reduceVec rows z) = some p) :
    insertRow rows z = elimCol p (reduceVec rows z) rows ++ [reduceVec rows z] := by
  simp only [insertRow, h]

theorem elimRow_length (r w : Bits) (p n : Nat) (hr : r.length = n) (hw : w.length = n) :
    (if r.getD p false then xorB r w else r).length = n := by
  by_cases h : r.getD p false = true
  · rw [if_pos h]
    exact length_xorB r w n hr hw
  · rw [if_neg h]
    exact hr

theorem elimRow_getD_p (r w : Bits) (p n : Nat) (hr : r.length = n) (hw : w.length = n)
    (hwp : w.getD p false = true) :
    (if r.getD p false then xorB r w else r).getD p false = false := by
  by_cases h : r.getD p false = true
  · rw [if_pos h, getD_xorB r w n hr hw p, h, hwp]
    rfl
  · rw [if_neg h]
    cases hv : r.getD p false
    · rfl
    · exact absurd hv h

theorem elimRow_getD_zero (r w : Bits) (p j n : Nat) (hr : r.length = n) (hw : w.length = n)
    (hwj : w.getD j false = false) :
    (if r.getD p false then xorB r w else r).getD j false = r.getD j false := by
  by_cases h : r.getD p false = true
  · rw [if_pos h, getD_xorB r w n hr hw j, hwj]
    cases r.getD j false <;> rfl
  · rw [if_neg h]

theorem elimRow_pivot (r w : Bits) (p q n : Nat) (hr : r.length = n) (hw : w.length = n)
    (hq : pivotIdx r = some q) (hwq : w.getD q false = false)
    (hwpiv : pivotIdx w = some p) :
    pivotIdx (if r.getD p false then xorB r w else r) = some q := by
  by_cases h : r.getD p false = true
  · rw [if_pos h]
    obtain ⟨hqlt, hqget, hqbefore⟩ := pivotIdx_spec r q hq
    obtain ⟨hplt, hpget, hpbefore⟩ := pivotIdx_spec w p hwpiv
    have hqp : q < p := by
      rcases Nat.lt_trichotomy q p with h1 | h1 | h1
      · exact h1
      · subst h1
        rw [hwq] at hpget
        exact absurd hpget (by simp)
      · rw [hqbefore p h1] at h
        exact absurd h (by simp)
    apply pivotIdx_intro
    · rw [length_xorB r w n hr hw]
      omega
    · rw [getD_xorB r w n hr hw q, hqget, hwq]
      rfl
    · intro j hj
      rw [getD_xorB r w n hr hw j, hqbefore j hj, hpbefore j (by omega)]
      rfl
  · rw [if_neg h]
    exact hq

theorem insertRow_inv (n : Nat) (rows : List Bits) (z : Bits)
    (hinv : SysInv n rows) (hz : z.length = n) : SysInv n (insertRow rows z) := by
  obtain ⟨hlen, hpiv, hpair⟩ := hinv
  cases hw : pivotIdx (reduceVec rows z) with
  | none =>
    rw [insertRow_none rows z hw]
    exact ⟨hlen, hpiv, hpair⟩
  | some p =>
    rw [insertRow_some rows z p hw]
    have hwlen : (reduceVec rows z).length = n := reduceVec_length rows z n hlen hz
    have hwclear : ∀ r ∈ rows, ∀ q, pivotIdx r = some q →
        (reduceVec rows z).getD q false = false :=
      fun r hr q hq => reduceVec_clears rows z n hpair hlen hz r hr q hq
    obtain ⟨hplt, hwp, hwbefore⟩ := pivotIdx_spec _ p hw
    refine ⟨?_, ?_, ?_⟩
    · intro x hx
      rcases List.mem_append.mp hx with hmem | hmem
      · obtain ⟨r, hr, heq⟩ := List.mem_map.mp hmem
        rw [← heq]
        exact elimRow_length r (reduceVec rows z) p n (hlen r hr) hwlen
      · rw [List.mem_singleton.mp hmem]
        exact hwlen
    · intro x hx
      rcases List.mem_append.mp hx with hmem | hmem
      · obtain ⟨r, hr, heq⟩ := List.mem_map.mp hmem
        obtain ⟨q, hq⟩ := Option.isSome_iff_exists.mp (hpiv r hr)
        rw [← heq]
        have := elimRow_pivot r (reduceVec rows z) p q n (hlen r hr) hwlen hq
          (hwclear r hr q hq) hw
        rw [show pivotIdx ((fun r => if r.getD p false then xorB r (reduceVec rows z) else r) r)
            = some q from this]
        rfl
      · rw [List.mem_singleton.mp hmem, hw]
        rfl
    · rw [List.pairwise_append]
      refine ⟨?_, List.pairwise_singleton _ _, ?_⟩
      · rw [show elimCol p (reduceVec rows z) rows =
            rows.map (fun r => if r.getD p false then xorB r (reduceVec rows z) else r) from rfl]
        rw [List.pairwise_map]
        refine List.Pairwise.imp_of_mem ?_ hpair
        intro a b ha hb hsep
        obtain ⟨qa, hqa⟩ := Option.isSome_iff_exists.mp (hpiv a ha)
        obtain ⟨qb, hqb⟩ := Option.isSome_iff_exists.mp (hpiv b hb)
        refine ⟨fun q' hq' => ?_, fun q' hq' => ?_⟩
        · rw [elimRow_pivot a (reduceVec rows z) p qa n (hlen a ha) hwlen hqa
            (hwclear a ha qa hqa) hw] at hq'
          injection hq' with hq''
          rw [← hq'']
          rw [elimRow_getD_zero b (reduceVec rows z) p qa n (hlen b hb) hwlen
            (hwclear a ha qa hqa)]
          exact hsep.1 qa hqa
        · rw [elimRow_pivot b (reduceVec rows z) p qb n (hlen b hb) hwlen hqb
            (hwclear b hb qb hqb) hw] at hq'
          injection hq' with hq''
          rw [← hq'']
          rw [elimRow_getD_zero a (reduceVec rows z) p qb n (hlen a ha) hwlen
            (hwclear b hb qb hqb)]
          exact hsep.2 qb hqb
      · intro x hx y hy
        rw [List.mem_singleton.mp hy]
        obtain ⟨r, hr, heq⟩ := List.mem_map.mp hx
        rw [← heq]
        obtain ⟨q, hq⟩ := Option.isSome_iff_exists.mp (hpiv r hr)
        refine ⟨fun q' hq' => ?_, fun q' hq' => ?_⟩
        · rw [elimRow_pivot r (reduceVec rows z) p q n (hlen r hr) hwlen hq
            (hwclear r hr q hq) hw] at hq'
          injection hq' with hq''
          rw [← hq'']
          exact hwclear r hr q hq
        · rw [hw] at hq'
          injection hq' with hq''
          rw [← hq'']
          exact elimRow_getD_p r (reduceVec rows z) p n (hlen r hr) hwlen hwp

/-! ### Lemmas about `collect` and independence -/

theorem collect_cons_stop (n : Nat) (z : Bits) (rest : List Bits) (rows : List Bits)
    (h : n - 1 ≤ rows.length) : collect n (z :: rest) rows = (rows, 0) := by
  simp [collect, h]

theorem collect_cons_go (n : Nat) (z : Bits) (rest : List Bits) (rows : List Bits)
    (h : ¬ (n - 1 ≤ rows.length)) :
    collect n (z :: rest) rows =
      ((collect n rest (insertRow rows z)).1, (collect n rest (insertRow rows z)).2 + 1) := by
  simp [collect, h]

theorem collect_inv (n : Nat) : ∀ (samples rows : List Bits),
    SysInv n rows → (∀ z ∈ samples, z.length = n) →
    SysInv n (collect n samples rows).1 := by
  intro samples
  induction samples with
  | nil => intro rows hinv _; exact hinv
  | cons z rest ih =>
    intro rows hinv hlens
    by_cases hstop : n - 1 ≤ rows.length
    · rw [collect_cons_stop n z rest rows hstop]
      exact hinv
    · rw [collect_cons_go n z rest rows hstop]
      exact ih (insertRow rows z)
        (insertRow_inv n rows z hinv (hlens z (List.mem_cons_self z rest)))
        (fun u hu => hlens u (List.mem_cons_of_mem z hu))

theorem insertRow_length_le (rows : List Bits) (z : Bits) :
    (insertRow rows z).length ≤ rows.length + 1 := by
  cases hw : pivotIdx (reduceVec rows z) with
  | none =>
    rw [insertRow_none rows z hw]
    omega
  | some p =>
    rw [insertRow_some rows z p hw]
    simp [elimCol]

theorem collect_length (n : Nat) : ∀ (samples rows : List Bits),
    rows.length ≤ n - 1 → ((collect n samples rows).1).length ≤ n - 1 := by
  intro samples
  induction samples with
  | nil => intro rows h; exact h
  | cons z rest ih =>
    intro rows h
    by_cases hstop : n - 1 ≤ rows.length
    · rw [collect_cons_stop n z rest rows hstop]
      exact h
    · rw [collect_cons_go n z rest rows hstop]
      exact ih (insertRow rows z)
        (by have := insertRow_length_le rows z; omega)

theorem collect_used (n : Nat) : ∀ (samples rows : List Bits),
    (collect n samples rows).2 ≤ samples.length := by
  intro samples
  induction samples with
  | nil => intro rows; simp [collect]
  | cons z rest ih =>
    intro rows
    by_cases hstop : n - 1 ≤ rows.length
    · rw [collect_cons_stop n z rest rows hstop]
      simp
    · rw [collect_cons_go n z rest rows hstop]
      have := ih (insertRow rows z)
      simp only [List.length_cons]
      omega

theorem xorFold_length (n : Nat) : ∀ S : List Bits,
    (∀ r ∈ S, r.length = n) → (xorFold n S).length = n := by
  intro S
  induction S with
  | nil => intro _; simp [xorFold, zeroBits]
  | cons r T ih =>
    intro hlen
    simp only [xorFold, List.foldr_cons]
    exact length_xorB r (T.foldr xorB (zeroBits n)) n (hlen r (List.mem_cons_self r T))
      (ih (fun u hu => hlen u (List.mem_cons_of_mem r hu)))

theorem getD_xorFold (n : Nat) : ∀ (S : List Bits) (i : Nat),
    (∀ r ∈ S, r.length = n) →
    (xorFold n S).getD i false =
      S.foldr (fun r acc => Bool.xor (r.getD i false) acc) false := by
  intro S
  induction S with
  | nil => intro i _; simp only [xorFold, List.foldr_nil]; exact getD_zeroBits n i
  | cons r T ih =>
    intro i hlen
    simp only [xorFold, List.foldr_cons]
    rw [getD_xorB r (T.foldr xorB (zeroBits n)) n (hlen r (List.mem_cons_self r T))
      (xorFold_length n T (fun u hu => hlen u (List.mem_cons_of_mem r hu)))]
    rw [show (T.foldr xorB (zeroBits n)) = xorFold n T from rfl,
      ih i (fun u hu => hlen u (List.mem_cons_of_mem r hu))]

theorem foldr_xor_all_false (i : Nat) : ∀ S : List Bits,
    (∀ r ∈ S, r.getD i false = false) →
    S.foldr (fun r acc => Bool.xor (r.getD i false) acc) false = false := by
  intro S
  induction S with
  | nil => intro _; rfl
  | cons r T ih =>
    intro hall
    simp only [List.foldr_cons]
    rw [hall r (List.mem_cons_self r T), ih (fun u hu => hall u (List.mem_cons_of_mem r hu))]
    rfl

theorem sysInv_linIndep (n : Nat) (rows : List Bits) (hinv : SysInv n rows) :
    LinIndep n rows := by
  obtain ⟨hlen, hpiv, hpair⟩ := hinv
  intro S hne hsub
  obtain ⟨r0, S', rfl⟩ : ∃ r0 S', S = r0 :: S' := by
    cases S with
    | nil => exact absurd rfl hne
    | cons a T => exact ⟨a, T, rfl⟩
  have hsubset := hsub.subset
  have hr0 : r0 ∈ rows := hsubset (List.mem_cons_self r0 S')
  obtain ⟨p0, hp0⟩ := Option.isSome_iff_exists.mp (hpiv r0 hr0)
  have hSpair : (r0 :: S').Pairwise SepRel := hpair.sublist hsub
  have hS'sep : ∀ s ∈ S', SepRel r0 s := (List.pairwise_cons.mp hSpair).1
  have hSlen : ∀ r ∈ r0 :: S', r.length = n := fun r hr => hlen r (hsubset hr)
  intro hcontra
  have hco := congrArg (fun l => List.getD l p0 false) hcontra
  simp only at hco
  rw [getD_xorFold n (r0 :: S') p0 hSlen, getD_zeroBits] at hco
  rw [List.foldr_cons] at hco
  rw [foldr_xor_all_false p0 S' (fun s hs => (hS'sep s hs).1 p0 hp0)] at hco
  rw [(pivotIdx_spec r0 p0 hp0).2.1] at hco
  exact absurd hco (by simp)

/-! ### Lemmas about `solveNull` and `lkfRecover` -/

theorem solveNull_some (n : Nat) (rows : List Bits) (c : Bits)
    (h : solveNull n rows = some c) : c.length = n ∧ c ≠ zeroBits n := by
  unfold solveNull at h
  cases hf : (List.range n).find? (fun j => ! rows.any (fun r => pivotIdx r == some j)) with
  | none =>
    rw [hf] at h
    exact absurd h (by simp)
  | some f =>
    rw [hf] at h
    injection h with h
    have hflt : f < n := List.mem_range.mp (List.mem_of_find?_eq_some hf)
    subst h
    constructor
    · simp
    · intro hzero
      have hco := congrArg (fun l => List.getD l f false) hzero
      simp only at hco
      rw [getD_zeroBits] at hco
      rw [List.getD_eq_getElem _ _ (by simpa using hflt)] at hco
      simp only [List.getElem_map, List.getElem_range, if_pos rfl] at hco
      exact absurd hco (by simp)

theorem lkfRecover_eq (oracle : Bits → Bits) (n : Nat) (samples : List Bits) :
    lkfRecover oracle n samples =
      (if ((collect n samples []).1).length < n - 1 then LKFResult.DEGENERATE
      else
        match solveNull n ((collect n samples []).1) with
        | none => LKFResult.INVALID_ORACLE
        | some c =>
          if oracle (zeroBits n) = oracle c then LKFResult.SOLVED c
          else if c = zeroBits n then LKFResult.SOLVED c
          else LKFResult.INVALID_ORACLE) := rfl

theorem lkf_solved_facts (oracle : Bits → Bits) (n : Nat) (samples : List Bits) (c : Bits)
    (h : lkfRecover oracle n samples = LKFResult.SOLVED c) :
    c.length = n ∧ c ≠ zeroBits n ∧ oracle (zeroBits n) = oracle c ∧
      solveNull n ((collect n samples []).1) = some c := by
  rw [lkfRecover_eq] at h
  by_cases hlen : ((collect n samples []).1).length < n - 1
  · rw [if_pos hlen] at h
    exact absurd h (by simp)
  · rw [if_neg hlen] at h
    cases hsol : solveNull n ((collect n samples []).1) with
    | none =>
      rw [hsol] at h
      exact absurd h (by simp)
    | some c2 =>
      rw [hsol] at h
      have h2 : (if oracle (zeroBits n) = oracle c2 then LKFResult.SOLVED c2
          else if c2 = zeroBits n then LKFResult.SOLVED c2
          else LKFResult.INVALID_ORACLE) = LKFResult.SOLVED c := h
      obtain ⟨hc2len, hc2ne⟩ := solveNull_some n _ c2 hsol
      by_cases hval : oracle (zeroBits n) = oracle c2
      · rw [if_pos hval] at h2
        injection h2 with h2
        subst h2
        exact ⟨hc2len, hc2ne, hval, rfl⟩
      · rw [if_neg hval] at h2
        by_cases hzero : c2 = zeroBits n
        · exact absurd hzero hc2ne
        · rw [if_neg hzero] at h2
          exact absurd h2 (by simp)

theorem lkf_invalid_iff (oracle : Bits → Bits) (n : Nat) (samples : List Bits) :
    lkfRecover oracle n samples = LKFResult.INVALID_ORACLE ↔
      (n - 1 ≤ ((collect n samples []).1).length ∧
        (solveNull n ((collect n samples []).1) = none ∨
          ∃ c, solveNull n ((collect n samples []).1) = some c ∧ c ≠ zeroBits n ∧
            oracle (zeroBits n) ≠ oracle c)) := by
  rw [lkfRecover_eq]
  by_cases hlen : ((collect n samples []).1).length < n - 1
  · rw [if_pos hlen]
    constructor
    · intro h
      exact absurd h (by simp)
    · rintro ⟨h1, _⟩
      omega
  · rw [if_neg hlen]
    cases hsol : solveNull n ((collect n samples []).1) with
    | none =>
      constructor
      · intro _
        exact ⟨by omega, Or.inl rfl⟩
      · intro _
        rfl
    | some c2 =>
      obtain ⟨hc2len, hc2ne⟩ := solveNull_some n _ c2 hsol
      have hred : (match some c2 with
          | none => LKFResult.INVALID_ORACLE
          | some c =>
            if oracle (zeroBits n) = oracle c then LKFResult.SOLVED c
            else if c = zeroBits n then LKFResult.SOLVED c
            else LKFResult.INVALID_ORACLE)
          = (if oracle (zeroBits n) = oracle c2 then LKFResult.SOLVED c2
            else if c2 = zeroBits n then LKFResult.SOLVED c2
            else LKFResult.INVALID_ORACLE) := rfl
      rw [hred]
      by_cases hval : oracle (zeroBits n) = oracle c2
      · rw [if_pos hval]
        constructor
        · intro h
          exact absurd h (by simp)
        · rintro ⟨_, hdis | ⟨c, hceq, _, hcne⟩⟩
          · exact absurd hdis (by simp)
          · injection hceq with hceq
            subst hceq
            exact absurd hval hcne
      · rw [if_neg hval]
        rw [if_neg hc2ne]
        constructor
        · intro _
          exact ⟨by omega, Or.inr ⟨c2, rfl, hc2ne, hval⟩⟩
        · intro _
          rfl

/-! ### Claim C2 -/

/-- C2 counterexample: as stated the claim fails on the spec-modelled
algorithm.  For the one-to-one identity oracle at n = 1 the finder reports
INVALID_ORACLE rather than the all-zero string (the spec's step 5 turns the
failed validation of the necessarily nonzero candidate into an error), and
for the two-to-one oracle with hidden b = "110" at n = 3 an uninformative
sample stream yields DEGENERATE rather than b. -/
theorem claim_C2_counterexample :
    OneToOne (fun x => x) 1 ∧
      lkfRecover (fun x => x) 1 [] = LKFResult.INVALID_ORACLE ∧
      lkfRecover (fun x => x) 1 [] ≠ LKFResult.SOLVED (zeroBits 1) ∧
      TwoToOne (simonOracle [true, true, false]) [true, true, false] 3 ∧
      [true, true, false] ≠ zeroBits 3 ∧
      lkfRecover (simonOracle [true, true, false]) 3 [] = LKFResult.DEGENERATE := by
  decide

/-- C2 (amended): for every n and sample stream, whenever the finder reports
SOLVED c for a two-to-one oracle with hidden string b, the answer is exactly
b; and the finder never reports SOLVED of the all-zero string (so a
one-to-one oracle is never answered with the all-zero string: it yields
DEGENERATE or INVALID_ORACLE instead). -/
theorem claim_C2_amended_kernel_finder :
    (∀ (oracle : Bits → Bits) (b : Bits) (n : Nat) (samples : List Bits) (c : Bits),
      TwoToOne oracle b n → lkfRecover oracle n samples = LKFResult.SOLVED c → c = b) ∧
    (∀ (oracle : Bits → Bits) (n : Nat) (samples : List Bits) (c : Bits),
      lkfRecover oracle n samples = LKFResult.SOLVED c → c ≠ zeroBits n) := by
  constructor
  · intro oracle b n samples c htwo hrec
    obtain ⟨hclen, hcne, hval, _⟩ := lkf_solved_facts oracle n samples c hrec
    obtain ⟨hblen, horacle⟩ := htwo
    have hzmem : zeroBits n ∈ allBits n := (mem_allBits n _).mpr (by simp [zeroBits])
    have hcmem : c ∈ allBits n := (mem_allBits n c).mpr hclen
    rcases (horacle (zeroBits n) hzmem c hcmem).mp hval with hc0 | hcb
    · exact absurd hc0 hcne
    · rw [hcb, xorB_zeroBits b n hblen]
  · intro oracle n samples c hrec
    exact (lkf_solved_facts oracle n samples c hrec).2.1

/-- Witness for the amended C2 at the spec's concrete scenario n = 3,
b = "110", with a sample stream that reaches rank 2. -/
theorem claim_C2_witness :
    ([true, true, false] : Bits) = [true, true, false] ∧
      ([true, true, false] : Bits) ≠ zeroBits 3 :=
  ⟨claim_C2_amended_kernel_finder.1 (simonOracle [true, true, false]) [true, true, false] 3
      [[false, false, true], [true, true, true]] [true, true, false] (by decide) (by decide),
   claim_C2_amended_kernel_finder.2 (simonOracle [true, true, false]) 3
      [[false, false, true], [true, true, true]] [true, true, false] (by decide)⟩

/-! ### Claim C5 -/

/-- C5 counterexample: for the two-to-one oracle with hidden b = "100" the
collision-based classical sampling step yields z = "100" (the collision pair
XOR), and `dot(b, z) = 1`, not 0: the spec's asserted measurement property
fails for odd-weight hidden strings. -/
theorem claim_C5_counterexample :
    TwoToOne (simonOracle [true, false, false]) [true, false, false] 3 ∧
      collisionSample (simonOracle [true, false, false]) (zeroBits 3) [true, false, false]
        = some [true, false, false] ∧
      dotMod2 [true, false, false] [true, false, false] = true := by
  decide

/-- C5 (amended): every vector z produced by the collision-based sampling
step on a two-to-one oracle with hidden string b equals b itself, so
`dot(b, z)` equals `dot(b, b)` (the parity of b's Hamming weight), which is
0 only for even-weight b such as "110". -/
theorem claim_C5_amended_sampling (oracle : Bits → Bits) (b : Bits) (n : Nat)
    (x y z : Bits) (htwo : TwoToOne oracle b n) (hx : x ∈ allBits n) (hy : y ∈ allBits n)
    (hz : collisionSample oracle x y = some z) :
    z = b ∧ dotMod2 b z = dotMod2 b b := by
  unfold collisionSample at hz
  by_cases hcond : x ≠ y ∧ oracle x = oracle y
  · rw [if_pos hcond] at hz
    injection hz with hz
    obtain ⟨hblen, horacle⟩ := htwo
    rcases (horacle x hx y hy).mp hcond.2 with hyx | hyb
    · exact absurd hyx.symm hcond.1
    · have hzb : z = b := by
        rw [← hz, hyb]
        exact xorB_cancel x b (by rw [(mem_allBits n x).mp hx, hblen])
      exact ⟨hzb, by rw [hzb]⟩
  · rw [if_neg hcond] at hz
    exact absurd hz (by simp)

/-- Witness for the amended C5 at b = "110", collision pair (000, 110). -/
theorem claim_C5_witness :
    ([true, true, false] : Bits) = [true, true, false] ∧
      dotMod2 [true, true, false] [true, true, false]
        = dotMod2 [true, true, false] [true, true, false] :=
  claim_C5_amended_sampling (simonOracle [true, true, false]) [true, true, false] 3
    (zeroBits 3) [true, true, false] [true, true, false]
    (by decide) (by decide) (by decide) (by decide)

/-! ### Claim C6 -/

/-- C6: throughout the COLLECTING phase the linear system keeps the
invariant that its rows are linearly independent over GF(2) (a sample is
appended only when its reduction is nonzero, i.e. only when it increases
the rank), the number of collected rows never exceeds n-1 (collection stops
at n-1 independent equations), and when the sample bound is exhausted below
n-1 independent equations DEGENERATE is reported. -/
theorem claim_C6_system_invariants (n : Nat) (samples : List Bits)
    (hsam : ∀ z ∈ samples, z.length = n) :
    SysInv n ((collect n samples []).1) ∧
    LinIndep n ((collect n samples []).1) ∧
    ((collect n samples []).1).length ≤ n - 1 ∧
    (∀ oracle : Bits → Bits, ((collect n samples []).1).length < n - 1 →
      lkfRecover oracle n samples = LKFResult.DEGENERATE) := by
  have hinv0 : SysInv n ([] : List Bits) := ⟨by simp, by simp, List.Pairwise.nil⟩
  have hinv := collect_inv n samples [] hinv0 hsam
  refine ⟨hinv, sysInv_linIndep n _ hinv, collect_length n samples [] (by simp), ?_⟩
  intro oracle hlt
  rw [lkfRecover_eq, if_pos hlt]

/-- Witness for C6 at n = 3 with the two-sample stream reaching rank 2. -/
theorem claim_C6_witness :
    SysInv 3 ((collect 3 [[false, false, true], [true, true, true]] []).1) ∧
    LinIndep 3 ((collect 3 [[false, false, true], [true, true, true]] []).1) ∧
    ((collect 3 [[false, false, true], [true, true, true]] []).1).length ≤ 3 - 1 ∧
    (∀ oracle : Bits → Bits,
      ((collect 3 [[false, false, true], [true, true, true]] []).1).length < 3 - 1 →
      lkfRecover oracle 3 [[false, false, true], [true, true, true]]
        = LKFResult.DEGENERATE) :=
  claim_C6_system_invariants 3 [[false, false, true], [true, true, true]] (by decide)

/-! ### Claim C7 -/

/-- C7: the finder reports INVALID_ORACLE exactly when the collection
reached n-1 rows and then either the row-reduced system has full rank n
(`solveNull` finds no free column) or the candidate is nonzero and the
validation check `oracle(0) == oracle(candidate)` fails; and in the
concrete scenario n = 3, b = "110" with a contract-honoring oracle, the
finder returns "110" and the validation check holds, so no error is
reported. -/
theorem claim_C7_validation :
    (∀ (oracle : Bits → Bits) (n : Nat) (samples : List Bits),
      lkfRecover oracle n samples = LKFResult.INVALID_ORACLE ↔
        (n - 1 ≤ ((collect n samples []).1).length ∧
          (solveNull n ((collect n samples []).1) = none ∨
            ∃ c, solveNull n ((collect n samples []).1) = some c ∧ c ≠ zeroBits n ∧
              oracle (zeroBits n) ≠ oracle c))) ∧
    lkfRecover (simonOracle [true, true, false]) 3 [[false, false, true], [true, true, true]]
      = LKFResult.SOLVED [true, true, false] ∧
    simonOracle [true, true, false] (zeroBits 3)
      = simonOracle [true, true, false] [true, true, false] :=
  ⟨lkf_invalid_iff, by decide, by decide⟩

/-! ### Claim C8 -/

/-- C8: every run of the finder ends in one of the three terminal outcome
states SOLVED, DEGENERATE or INVALID_ORACLE (errors are surfaced as
explicit result states carrying no partial result: a SOLVED answer is
always a nonzero candidate), and the number of samples consumed by the
bounded resampling loop never exceeds the sample bound. -/
theorem claim_C8_state_machine (oracle : Bits → Bits) (n : Nat) (samples : List Bits) :
    ((∃ c, lkfRecover oracle n samples = LKFResult.SOLVED c ∧ c ≠ zeroBits n) ∨
      lkfRecover oracle n samples = LKFResult.DEGENERATE ∨
      lkfRecover oracle n samples = LKFResult.INVALID_ORACLE) ∧
    (collect n samples []).2 ≤ samples.length := by
  refine ⟨?_, collect_used n samples []⟩
  cases hres : lkfRecover oracle n samples with
  | SOLVED c => exact Or.inl ⟨c, rfl, (lkf_solved_facts oracle n samples c hres).2.1⟩
  | DEGENERATE => exact Or.inr (Or.inl rfl)
  | INVALID_ORACLE => exact Or.inr (Or.inr rfl)
